import Mathlib

/-!
Shallow embedding of `darwin/dataset/utils.py` (repository `co2meal/darwin-py`):
the dataset split utilities — stratified and random train/val/test partitioning
with cross-contamination repair — together with a file-system trace model of the
orchestration in `split_dataset`, and the `get_classes` reader.

Conventions used throughout:
* image indices are `ℤ`, label names are `String`;
* numpy arrays become `List`s; parallel arrays stay parallel lists and boolean
  masks are applied positionally, as in the source;
* the ambient numpy random stream consumed by `np.random.rand()` is modelled as
  a function `coins : ℕ → Bool` together with an explicit counter of how many
  draws have been consumed (`coins k` answers "was the k-th draw > 0.5?");
* fallible code returns `Except String`.
-/

/-- Python `int()` applied to a rational. `int()` truncates toward zero; every
call site in the source passes a nonnegative value, where truncation coincides
with the floor, and `Int` division (`ediv`) on `num / den` with a positive
denominator is exactly the floor. -/
def pyInt (q : ℚ) : ℤ := q.num / q.den

/-- Lexicographic comparison of character lists by code point (the order
`np.unique` uses when sorting an array of strings). -/
def charListLe : List Char → List Char → Bool
  | [], _ => true
  | _ :: _, [] => false
  | c :: cs, d :: ds =>
    if c.toNat < d.toNat then true
    else if d.toNat < c.toNat then false
    else charListLe cs ds

/-- String comparison used to model `np.unique`'s sorted output. -/
def strLeB (a b : String) : Bool := charListLe a.data b.data

/-- Insert a string into a sorted list (helper for `sortStr`). -/
def insertStr (x : String) : List String → List String
  | [] => [x]
  | y :: ys => if strLeB x y then x :: y :: ys else y :: insertStr x ys

/-- Insertion sort on strings; models the sorted order of `np.unique`. The
claims proved below depend only on membership, never on the order. -/
def sortStr : List String → List String
  | [] => []
  | x :: xs => insertStr x (sortStr xs)

/-! ### `get_classes` (utils.py lines 82-111)

The file contents are modelled as the list of raw lines handed out by
iterating the open file; `e.strip()` becomes `String.trim`. -/

/-- `get_classes`, lines 107-111 of `utils.py`:
`classes = [e.strip() for e in open(...)]` followed by
`if remove_background and classes[0] == "__background__": classes = classes[1:]`.
The subscript `classes[0]` is evaluated only when `remove_background` is true
(Python's `and` short-circuits) and raises `IndexError` on an empty file. -/
def get_classes (file_lines : List String) (remove_background : Bool) :
    Except String (List String) :=
  let classes := file_lines.map String.trim
  if remove_background then
    match classes with
    | [] => Except.error "IndexError: list index out of range"
    | c :: rest => Except.ok (if c = "__background__" then rest else c :: rest)
  else Except.ok classes

/-! ### `remove_cross_contamination` (utils.py lines 131-169) -/

/-- Apply a numpy boolean mask to a list: keep the entries at the positions
where the mask is true (`X[keep_locations]`). -/
def applyMask {γ : Type} : List Bool → List γ → List γ
  | b :: bs, x :: xs => if b then x :: applyMask bs xs else applyMask bs xs
  | _, _ => []

/-- Result of the repair pass: the four filtered arrays plus the number of
random draws (`np.random.rand()` calls) consumed so far. -/
structure RccResult (α β : Type) where
  Xa : List α
  Xb : List α
  ya : List β
  yb : List β
  flips : ℕ
  deriving DecidableEq

/-- The loop `for a in X_a: ...` of `remove_cross_contamination`. Python's
iterator is bound to the array object `X_a` held at loop entry, so the first
list argument is that snapshot, while the current (shrinking) arrays are
threaded separately. `keep_locations = X_a != a` is the mask of positions whose
value differs from `a`, applied to the value array and its label array alike. -/
def rccLoop {α β : Type} [DecidableEq α] (coins : ℕ → Bool) :
    List α → ℕ → List α → List α → List β → List β → RccResult α β
  | [], k, Xa, Xb, ya, yb => ⟨Xa, Xb, ya, yb, k⟩
  | a :: todo, k, Xa, Xb, ya, yb =>
    if a ∈ Xb then
      if coins k then
        rccLoop coins todo (k + 1)
          (applyMask (Xa.map (fun x => decide (x ≠ a))) Xa) Xb
          (applyMask (Xa.map (fun x => decide (x ≠ a))) ya) yb
      else
        rccLoop coins todo (k + 1)
          Xa (applyMask (Xb.map (fun x => decide (x ≠ a))) Xb)
          ya (applyMask (Xb.map (fun x => decide (x ≠ a))) yb)
    else rccLoop coins todo k Xa Xb ya yb

/-- `remove_cross_contamination`, lines 156-169 of `utils.py`: iterate over the
entry snapshot of `X_a`; for every `a` still present in `X_b`, draw from the
random stream and remove all occurrences of `a` from one side (and from its
parallel label array). `k` is the number of random draws consumed before the
call. -/
def remove_cross_contamination {α β : Type} [DecidableEq α] (coins : ℕ → Bool)
    (k : ℕ) (Xa Xb : List α) (ya yb : List β) : RccResult α β :=
  rccLoop coins Xa k Xa Xb ya yb

/-! ### `_stratify_samples` (utils.py lines 172-242)

`idx_to_classes` is modelled as an association list from image index to the
list of label names on that image. The parallel arrays `file_indices` and
`labels` originate from `zip(*expanded_list)` and every operation performed on
them (`np.delete` at one index, row selection by `train_test_split`) acts at
the same positions of both, so they are carried as one list of
(index, label) pairs; `np.where(labels == l)[0][0]` becomes `findIdx` on the
label component and `np.delete(..., index)` becomes `eraseIdx` at the found
position. -/

/-- An (image index, label) pair of the expanded stratification input. -/
abbrev ILPair := ℤ × String

/-- `expanded_list = [(k, c) for k, v in idx_to_classes.items() for c in v]`
(line 194). -/
def expanded_list (idx_to_classes : List (ℤ × List String)) : List ILPair :=
  idx_to_classes.flatMap (fun kv => kv.2.map (fun c => (kv.1, c)))

/-- `unique_labels[count == 1]` (lines 199-201): the labels whose dataset-wide
support count is exactly 1, in the sorted order produced by `np.unique`. -/
def singleton_labels (labels : List String) : List String :=
  (sortStr labels.dedup).filter (fun l => labels.count l == 1)

/-- One iteration of the singleton-extraction loop (lines 201-205):
`index = np.where(labels == l)[0][0]` finds the first position labelled `l`,
`single_files.append(file_indices[index])` records the image index there, and
`np.delete` removes that position from both parallel arrays. Every label
passed in by the pipeline is present, so the out-of-range defaults of
`findIdx`/`getD` (which make the step a no-op) are never exercised there. -/
def extract_single (st : List ILPair × List ℤ) (l : String) :
    List ILPair × List ℤ :=
  let j := st.1.findIdx (fun p => p.2 == l)
  if j < st.1.length then (st.1.eraseIdx j, st.2 ++ [(st.1.getD j (0, "")).1])
  else st

/-- Lines 194-205 of `_stratify_samples`: expand the mapping, then remove the
one occurrence of every singleton label, collecting the affected image indices
into `single_files`. Returns (remaining pairs, single_files). -/
def stratify_prep (idx_to_classes : List (ℤ × List String)) :
    List ILPair × List ℤ :=
  let ps := expanded_list idx_to_classes
  (singleton_labels (ps.map (·.2))).foldl extract_single (ps, [])

/-- The shape of `sklearn.model_selection.train_test_split` as used by the
source: rows are (index, label) pairs (the same row selection is applied to
`X` and `y`), the second argument is `test_size`, the third `random_state`.
Returns (train rows, test rows). -/
def TTS : Type := List ILPair → ℚ → ℤ → List ILPair × List ILPair

/-- What any outcome of `train_test_split` satisfies: the two returned sides
partition the input rows (as a multiset). This is the only property of the
library call the positive theorems below rely on. -/
def TTSContract (tts : TTS) : Prop :=
  ∀ ps q s, ((tts ps q s).1 ++ (tts ps q s).2).Perm ps

/-- Modelled from the spec: `sklearn.model_selection.train_test_split` is not
part of this repository. Following the spec's stratified-split step ("Run a
stratified train/temp split with temp fraction = val%+test%, using the seed";
outcome explicitly library-dependent), this instance realises one admissible
outcome of the seeded library call: the test side receives the first
`ceil(frac * n)` rows and the train side the rest (`sklearn` sizes the test
side by the ceiling of `test_size * n`). -/
def concrete_tts : TTS := fun ps frac _ =>
  let k := (-pyInt (-(frac * (ps.length : ℚ)))).toNat
  (ps.drop k, ps.take k)

/-- Lines 210-242 of `_stratify_samples`, after the emptiness guards: the
first stratified split plus repair between train and tmp, the re-attachment of
`single_files` to train, and (when `test_percentage` is nonzero) the second
split plus repair between val and test. `list(set(...astype(np.int)))`
becomes `dedup` (the claims below only ever inspect membership, never the
iteration order of the Python set). -/
def stratify_main (tts : TTS) (coins : ℕ → Bool) (remaining : List ILPair)
    (single_files : List ℤ) (split_seed : ℤ)
    (test_percentage val_percentage : ℚ) :
    List ℤ × List ℤ × Option (List ℤ) :=
  let s := tts remaining
    ((pyInt ((val_percentage + test_percentage) * 100) : ℚ) / 100) split_seed
  let r1 := remove_cross_contamination coins 0
    (s.1.map (·.1)) (s.2.map (·.1)) (s.1.map (·.2)) (s.2.map (·.2))
  let X_train := r1.Xa ++ single_files
  if test_percentage = 0 then (X_train.dedup, r1.Xb.dedup, none)
  else
    let s2 := tts (r1.Xb.zip r1.yb)
      ((test_percentage * 100 / (val_percentage + test_percentage)) / 100)
      split_seed
    let r2 := remove_cross_contamination coins r1.flips
      (s2.1.map (·.1)) (s2.2.map (·.1)) (s2.1.map (·.2)) (s2.2.map (·.2))
    (X_train.dedup, r2.Xa.dedup, some (r2.Xb.dedup))

/-- `_stratify_samples` (lines 172-242). With an empty mapping the expanded
list is empty and `file_indices, labels = zip(*expanded_list)` raises
`ValueError` (unpacking `zip()` yields zero values for two targets), before
the `len(file_indices) == 0` guard of line 207 can run; that guard is reached
— and returns three empty lists — only when the expansion was non-empty but
every pair carried a singleton label. -/
def stratify_samples (tts : TTS) (coins : ℕ → Bool)
    (idx_to_classes : List (ℤ × List String)) (split_seed : ℤ)
    (test_percentage val_percentage : ℚ) :
    Except String (List ℤ × List ℤ × Option (List ℤ)) :=
  if expanded_list idx_to_classes = [] then
    Except.error "ValueError: not enough values to unpack (expected 2, got 0)"
  else
    let pr := stratify_prep idx_to_classes
    if pr.1.map (·.1) = [] ∨ pr.1.map (·.2) = [] then Except.ok ([], [], some [])
    else Except.ok
      (stratify_main tts coins pr.1 pr.2 split_seed test_percentage val_percentage)

/-! ### `split_dataset` orchestration (utils.py lines 245-384)

The function is dominated by file-system effects; it is modelled as a pure
function from the relevant pre-state of the file system (and the parameters)
to the ordered trace of file-system effects it performs plus its
success/error outcome. -/

/-- One file-system effect of `split_dataset`, in program order:
reading the annotation directory listing (lines 283-285), creating the
`lists` folder (line 289), creating the split directory (line 331), writing
one split file (lines 346-375), re-pointing the default-split symlink
(lines 378-382). -/
inductive FsEvent where
  | scanDir : FsEvent
  | mkdirLists : FsEvent
  | mkdirSplit : String → FsEvent
  | writeSplitFile : String → FsEvent
  | symlinkDefault : String → FsEvent
  deriving DecidableEq

/-- An `FsEvent` that creates or rewrites split data (used to state that no
recomputation happened). -/
def FsEvent.isWriteLike : FsEvent → Bool
  | FsEvent.mkdirSplit _ => true
  | FsEvent.writeSplitFile _ => true
  | _ => false

/-- The pre-state of the file system and dataset that `split_dataset`'s
control flow depends on. -/
structure DatasetFs where
  splitDirExists : String → Bool
  defaultSplitExists : Bool
  hasTagClasses : Bool
  hasPolygonClasses : Bool

/-- Lines 305-307 of `utils.py`:
`split_id = f"split_v{int(val_percentage*100)}_t{int(test_percentage*100)}"`
then, for a nonzero seed, `split_id += "_s{split_seed}"`. The appended string
in the source is NOT an f-string (the `f` prefix is missing on line 307), so
the literal nine characters `{split_seed}` are appended, not the seed's
decimal value; the model reproduces the source. -/
def split_id (val_percentage test_percentage : ℚ) (split_seed : ℤ) : String :=
  let base := "split_v" ++ toString (pyInt (val_percentage * 100))
    ++ "_t" ++ toString (pyInt (test_percentage * 100))
  if split_seed ≠ 0 then base ++ "_s\x7bsplit_seed\x7d" else base

/-- The split files written inside the freshly created split directory
(lines 334-375), in program order: the random split always, the stratified
splits only when labels of that kind exist, test files only when
`test_percentage > 0`. -/
def splitFileWrites (fs : DatasetFs) (test_percentage : ℚ) : List FsEvent :=
  ([FsEvent.writeSplitFile "random_train.txt",
    FsEvent.writeSplitFile "random_val.txt"]
    ++ (if 0 < test_percentage then [FsEvent.writeSplitFile "random_test.txt"]
        else []))
  ++ (if fs.hasTagClasses then
        [FsEvent.writeSplitFile "stratified_tag_train.txt",
         FsEvent.writeSplitFile "stratified_tag_val.txt"]
        ++ (if 0 < test_percentage then
              [FsEvent.writeSplitFile "stratified_tag_test.txt"] else [])
      else [])
  ++ (if fs.hasPolygonClasses then
        [FsEvent.writeSplitFile "stratified_polygon_train.txt",
         FsEvent.writeSplitFile "stratified_polygon_val.txt"]
        ++ (if 0 < test_percentage then
              [FsEvent.writeSplitFile "stratified_polygon_test.txt"] else [])
      else [])

/-- `split_dataset` (lines 245-384) as a trace model. Program order in the
source: read the annotation listing and create the `lists` folder
(lines 283-289), only THEN validate the percentages and the seed
(lines 292-304), derive the split id, recompute the split only when the split
directory does not exist (line 330 — the `force_resplit` parameter is accepted
on line 249 but never consulted), and finally manage the default-split
symlink (lines 378-382). -/
def split_dataset (fs : DatasetFs) (val_percentage test_percentage : Option ℚ)
    (force_resplit : Bool) (split_seed : Option ℤ) (make_default_split : Bool) :
    List FsEvent × Except String Unit :=
  let events := [FsEvent.scanDir, FsEvent.mkdirLists]
  match val_percentage with
  | none => (events, Except.error "Invalid validation percentage")
  | some v =>
    if ¬(0 < v ∧ v < 1) then
      (events, Except.error "Invalid validation percentage")
    else
      match test_percentage with
      | none => (events, Except.error "Invalid test percentage")
      | some t =>
        if ¬(0 ≤ t ∧ t < 1) then
          (events, Except.error "Invalid test percentage")
        else if ¬(v + t < 1) then
          (events,
           Except.error "Invalid combination of validation and test percentages")
        else
          match split_seed with
          | none => (events, Except.error "Seed is None")
          | some seed =>
            let sid := split_id v t seed
            let events :=
              if fs.splitDirExists sid then events
              else events ++ FsEvent.mkdirSplit sid :: splitFileWrites fs t
            let events :=
              if make_default_split ∨ !fs.defaultSplitExists then
                events ++ [FsEvent.symlinkDefault sid]
              else events
            (events, Except.ok ())

/-! ### The random partitioner (utils.py lines 334-344)

`np.random.permutation(dataset_size)` is external to the repository; the
permutation is a parameter, constrained in the theorems to be a permutation
of `range(dataset_size)`. -/

/-- Lines 335-344 of `split_dataset`: compute the three slice sizes with
`int(...)` truncation and slice the permuted index array into three
contiguous runs. -/
def random_split (indices : List ℕ) (dataset_size : ℕ)
    (val_percentage test_percentage : ℚ) : List ℕ × List ℕ × List ℕ :=
  let val_size := (pyInt ((dataset_size : ℚ) * val_percentage)).toNat
  let test_size := (pyInt ((dataset_size : ℚ) * test_percentage)).toNat
  let train_size := dataset_size - val_size - test_size
  (indices.take train_size,
   (indices.drop train_size).take val_size,
   indices.drop (train_size + val_size))

deriving instance DecidableEq for Except

/-! ## Lemmas about `applyMask` -/

theorem applyMask_map_self {γ : Type} (f : γ → Bool) (xs : List γ) :
    applyMask (xs.map f) xs = xs.filter f := by
  induction xs with
  | nil => rfl
  | cons x xs ih => simp [applyMask, List.filter_cons, ih]

theorem applyMask_map_length {γ δ : Type} (f : γ → Bool) :
    ∀ (xs : List γ) (ys : List δ), xs.length = ys.length →
      (applyMask (xs.map f) ys).length = (xs.filter f).length
  | [], [], _ => rfl
  | x :: xs, y :: ys, h => by
    have h' : xs.length = ys.length := by simpa using h
    by_cases hf : f x <;>
      simp [applyMask, List.filter_cons, hf, applyMask_map_length f xs ys h']

theorem applyMask_map_zip {γ δ : Type} (f : γ → Bool) :
    ∀ (xs : List γ) (ys : List δ), xs.length = ys.length →
      (applyMask (xs.map f) xs).zip (applyMask (xs.map f) ys)
        = (xs.zip ys).filter (fun p => f p.1)
  | [], [], _ => rfl
  | x :: xs, y :: ys, h => by
    have h' : xs.length = ys.length := by simpa using h
    by_cases hf : f x <;>
      simp [applyMask, List.filter_cons, hf, applyMask_map_zip f xs ys h']

/-! ## Lemmas about the repair loop `rccLoop` -/

theorem rccLoop_sublist {α β : Type} [DecidableEq α] (coins : ℕ → Bool) :
    ∀ (todo : List α) (k : ℕ) (Xa Xb : List α) (ya yb : List β),
      (rccLoop coins todo k Xa Xb ya yb).Xa.Sublist Xa ∧
      (rccLoop coins todo k Xa Xb ya yb).Xb.Sublist Xb
  | [], _, _, _, _, _ => ⟨List.Sublist.refl _, List.Sublist.refl _⟩
  | a :: todo, k, Xa, Xb, ya, yb => by
    simp only [rccLoop]
    split
    · split
      · have ih := rccLoop_sublist coins todo (k + 1)
          (applyMask (Xa.map (fun x => decide (x ≠ a))) Xa) Xb
          (applyMask (Xa.map (fun x => decide (x ≠ a))) ya) yb
        refine ⟨ih.1.trans ?_, ih.2⟩
        rw [applyMask_map_self]
        exact List.filter_sublist Xa
      · have ih := rccLoop_sublist coins todo (k + 1)
          Xa (applyMask (Xb.map (fun x => decide (x ≠ a))) Xb)
          ya (applyMask (Xb.map (fun x => decide (x ≠ a))) yb)
        refine ⟨ih.1, ih.2.trans ?_⟩
        rw [applyMask_map_self]
        exact List.filter_sublist Xb
    · exact rccLoop_sublist coins todo k Xa Xb ya yb

theorem rccLoop_mem_of_not_mem {α β : Type} [DecidableEq α] (coins : ℕ → Bool)
    (v : α) :
    ∀ (todo : List α) (_ : v ∉ todo) (k : ℕ) (Xa Xb : List α) (ya yb : List β),
      (v ∈ (rccLoop coins todo k Xa Xb ya yb).Xa ↔ v ∈ Xa) ∧
      (v ∈ (rccLoop coins todo k Xa Xb ya yb).Xb ↔ v ∈ Xb)
  | [], _, _, _, _, _, _ => ⟨Iff.rfl, Iff.rfl⟩
  | a :: todo, hv, k, Xa, Xb, ya, yb => by
    have hva : v ≠ a := fun h => hv (h ▸ List.mem_cons_self a todo)
    have hv' : v ∉ todo := fun h => hv (List.mem_cons_of_mem a h)
    have hmem : ∀ (l : List α),
        v ∈ l.filter (fun x => decide (x ≠ a)) ↔ v ∈ l := by
      intro l; simp [List.mem_filter, hva]
    simp only [rccLoop]
    split
    · split
      · have ih := rccLoop_mem_of_not_mem coins v todo hv' (k + 1)
          (applyMask (Xa.map (fun x => decide (x ≠ a))) Xa) Xb
          (applyMask (Xa.map (fun x => decide (x ≠ a))) ya) yb
        have hXa : v ∈ applyMask (Xa.map (fun x => decide (x ≠ a))) Xa ↔ v ∈ Xa := by
          rw [applyMask_map_self]; exact hmem Xa
        exact ⟨ih.1.trans hXa, ih.2⟩
      · have ih := rccLoop_mem_of_not_mem coins v todo hv' (k + 1)
          Xa (applyMask (Xb.map (fun x => decide (x ≠ a))) Xb)
          ya (applyMask (Xb.map (fun x => decide (x ≠ a))) yb)
        have hXb : v ∈ applyMask (Xb.map (fun x => decide (x ≠ a))) Xb ↔ v ∈ Xb := by
          rw [applyMask_map_self]; exact hmem Xb
        exact ⟨ih.1, ih.2.trans hXb⟩
    · exact rccLoop_mem_of_not_mem coins v todo hv' k Xa Xb ya yb

theorem rccLoop_common_mem {α β : Type} [DecidableEq α] (coins : ℕ → Bool)
    (v : α) :
    ∀ (todo : List α) (k : ℕ) (Xa Xb : List α) (ya yb : List β),
      v ∈ (rccLoop coins todo k Xa Xb ya yb).Xa →
      v ∈ (rccLoop coins todo k Xa Xb ya yb).Xb →
      v ∈ Xa ∧ v ∈ Xb ∧ v ∉ todo
  | [], _, _, _, _, _, h1, h2 => ⟨h1, h2, List.not_mem_nil v⟩
  | a :: todo, k, Xa, Xb, ya, yb, h1, h2 => by
    revert h1 h2
    simp only [rccLoop]
    split
    · rename_i hab
      split
      · intro h1 h2
        have ih := rccLoop_common_mem coins v todo (k + 1)
          (applyMask (Xa.map (fun x => decide (x ≠ a))) Xa) Xb
          (applyMask (Xa.map (fun x => decide (x ≠ a))) ya) yb h1 h2
        rw [applyMask_map_self, List.mem_filter] at ih
        obtain ⟨⟨hXa, hne⟩, hXb, htodo⟩ := ih
        refine ⟨hXa, hXb, ?_⟩
        simp only [List.mem_cons, not_or]
        exact ⟨by simpa using hne, htodo⟩
      · intro h1 h2
        have ih := rccLoop_common_mem coins v todo (k + 1)
          Xa (applyMask (Xb.map (fun x => decide (x ≠ a))) Xb)
          ya (applyMask (Xb.map (fun x => decide (x ≠ a))) yb) h1 h2
        rw [applyMask_map_self, List.mem_filter] at ih
        obtain ⟨hXa, ⟨hXb, hne⟩, htodo⟩ := ih
        refine ⟨hXa, hXb, ?_⟩
        simp only [List.mem_cons, not_or]
        exact ⟨by simpa using hne, htodo⟩
    · rename_i hab
      intro h1 h2
      have ih := rccLoop_common_mem coins v todo k Xa Xb ya yb h1 h2
      refine ⟨ih.1, ih.2.1, ?_⟩
      simp only [List.mem_cons, not_or]
      exact ⟨fun h => hab (h ▸ ih.2.1), ih.2.2⟩

theorem rccLoop_count_Xa {α β : Type} [DecidableEq α] (coins : ℕ → Bool)
    (v : α) :
    ∀ (todo : List α) (k : ℕ) (Xa Xb : List α) (ya yb : List β), v ∉ Xb →
      (rccLoop coins todo k Xa Xb ya yb).Xa.count v = Xa.count v
  | [], _, _, _, _, _, _ => rfl
  | a :: todo, k, Xa, Xb, ya, yb, hv => by
    simp only [rccLoop]
    split
    · rename_i hab
      have hva : v ≠ a := fun h => hv (h ▸ hab)
      split
      · have ih := rccLoop_count_Xa coins v todo (k + 1)
          (applyMask (Xa.map (fun x => decide (x ≠ a))) Xa) Xb
          (applyMask (Xa.map (fun x => decide (x ≠ a))) ya) yb hv
        rw [ih, applyMask_map_self, List.count_filter (by simpa using hva)]
      · have hv' : v ∉ applyMask (Xb.map (fun x => decide (x ≠ a))) Xb := by
          rw [applyMask_map_self, List.mem_filter]
          exact fun h => hv h.1
        exact rccLoop_count_Xa coins v todo (k + 1)
          Xa (applyMask (Xb.map (fun x => decide (x ≠ a))) Xb)
          ya (applyMask (Xb.map (fun x => decide (x ≠ a))) yb) hv'
    · exact rccLoop_count_Xa coins v todo k Xa Xb ya yb hv

theorem rccLoop_count_Xb {α β : Type} [DecidableEq α] (coins : ℕ → Bool)
    (v : α) :
    ∀ (todo : List α) (_ : v ∉ todo) (k : ℕ) (Xa Xb : List α) (ya yb : List β),
      (rccLoop coins todo k Xa Xb ya yb).Xb.count v = Xb.count v
  | [], _, _, _, _, _, _ => rfl
  | a :: todo, hv, k, Xa, Xb, ya, yb => by
    have hva : v ≠ a := fun h => hv (h ▸ List.mem_cons_self a todo)
    have hv' : v ∉ todo := fun h => hv (List.mem_cons_of_mem a h)
    simp only [rccLoop]
    split
    · split
      · exact rccLoop_count_Xb coins v todo hv' (k + 1)
          (applyMask (Xa.map (fun x => decide (x ≠ a))) Xa) Xb
          (applyMask (Xa.map (fun x => decide (x ≠ a))) ya) yb
      · have ih := rccLoop_count_Xb coins v todo hv' (k + 1)
          Xa (applyMask (Xb.map (fun x => decide (x ≠ a))) Xb)
          ya (applyMask (Xb.map (fun x => decide (x ≠ a))) yb)
        rw [ih, applyMask_map_self, List.count_filter (by simpa using hva)]
    · exact rccLoop_count_Xb coins v todo hv' k Xa Xb ya yb

theorem rccLoop_flips {α β : Type} [DecidableEq α] (coins : ℕ → Bool) :
    ∀ (todo : List α) (k : ℕ) (Xa Xb : List α) (ya yb : List β)
      (_ : ∀ x ∈ Xb, todo.count x ≤ 1),
      (rccLoop coins todo k Xa Xb ya yb).flips
        = k + (todo.filter (fun a => decide (a ∈ Xb))).length
  | [], _, _, _, _, _, _ => by simp [rccLoop]
  | a :: todo, k, Xa, Xb, ya, yb, hcnt => by
    have hdrop : ∀ x : α, todo.count x ≤ (a :: todo).count x := fun x => by
      rw [List.count_cons]
      exact Nat.le_add_right _ _
    simp only [rccLoop]
    split
    · rename_i hab
      have hna : a ∉ todo := by
        have h1 := hcnt a hab
        rw [List.count_cons_self] at h1
        exact List.count_eq_zero.mp (by omega)
      have hfc : ((a :: todo).filter (fun x => decide (x ∈ Xb))).length
          = (todo.filter (fun x => decide (x ∈ Xb))).length + 1 := by
        simp [List.filter_cons, hab]
      split
      · have ih := rccLoop_flips coins todo (k + 1)
          (applyMask (Xa.map (fun x => decide (x ≠ a))) Xa) Xb
          (applyMask (Xa.map (fun x => decide (x ≠ a))) ya) yb
          (fun x hx => le_trans (hdrop x) (hcnt x hx))
        rw [ih, hfc]; omega
      · have ih := rccLoop_flips coins todo (k + 1)
          Xa (applyMask (Xb.map (fun x => decide (x ≠ a))) Xb)
          ya (applyMask (Xb.map (fun x => decide (x ≠ a))) yb)
          (fun x hx => by
            have hxb : x ∈ Xb := by
              rw [applyMask_map_self, List.mem_filter] at hx
              exact hx.1
            exact le_trans (hdrop x) (hcnt x hxb))
        rw [ih, hfc]
        have hcong : todo.filter
              (fun x => decide (x ∈ applyMask (Xb.map (fun y => decide (y ≠ a))) Xb))
            = todo.filter (fun x => decide (x ∈ Xb)) := by
          apply List.filter_congr
          intro x hx
          have hxa : x ≠ a := fun h => hna (h ▸ hx)
          rw [applyMask_map_self]
          simp [List.mem_filter, hxa]
        rw [hcong]; omega
    · rename_i hab
      have ih := rccLoop_flips coins todo k Xa Xb ya yb
        (fun x hx => le_trans (hdrop x) (hcnt x hx))
      rw [ih]
      have hfc : (a :: todo).filter (fun x => decide (x ∈ Xb))
          = todo.filter (fun x => decide (x ∈ Xb)) := by
        simp [List.filter_cons, hab]
      rw [hfc]

theorem rccLoop_xor {α β : Type} [DecidableEq α] (coins : ℕ → Bool) (v : α) :
    ∀ (todo : List α) (_ : todo.count v = 1) (k : ℕ) (Xa Xb : List α)
      (ya yb : List β),
      v ∈ Xa → v ∈ Xb →
      ((v ∈ (rccLoop coins todo k Xa Xb ya yb).Xa)
        ↔ v ∉ (rccLoop coins todo k Xa Xb ya yb).Xb)
  | [], hcv, _, _, _, _, _, _, _ => absurd hcv (by simp)
  | a :: todo, hcv, k, Xa, Xb, ya, yb, hvXa, hvXb => by
    by_cases hva : v = a
    · subst hva
      have hna : v ∉ todo := by
        rw [List.count_cons_self] at hcv
        exact List.count_eq_zero.mp (by omega)
      simp only [rccLoop, if_pos hvXb]
      split
      · have hmm := rccLoop_mem_of_not_mem (β := β) coins v todo hna (k + 1)
          (applyMask (Xa.map (fun x => decide (x ≠ v))) Xa) Xb
          (applyMask (Xa.map (fun x => decide (x ≠ v))) ya) yb
        rw [hmm.1, hmm.2, applyMask_map_self, List.mem_filter]
        simp [hvXb]
      · have hmm := rccLoop_mem_of_not_mem (β := β) coins v todo hna (k + 1)
          Xa (applyMask (Xb.map (fun x => decide (x ≠ v))) Xb)
          ya (applyMask (Xb.map (fun x => decide (x ≠ v))) yb)
        rw [hmm.1, hmm.2, applyMask_map_self, List.mem_filter]
        simp [hvXa]
    · have hcv' : todo.count v = 1 := by
        have hbeq : (a == v) = false := by
          simpa using fun h : a = v => hva h.symm
        rw [List.count_cons, hbeq] at hcv
        simpa using hcv
      simp only [rccLoop]
      split
      · split
        · have hvXa' : v ∈ applyMask (Xa.map (fun x => decide (x ≠ a))) Xa := by
            rw [applyMask_map_self, List.mem_filter]
            exact ⟨hvXa, by simpa using hva⟩
          exact rccLoop_xor coins v todo hcv' (k + 1)
            (applyMask (Xa.map (fun x => decide (x ≠ a))) Xa) Xb
            (applyMask (Xa.map (fun x => decide (x ≠ a))) ya) yb hvXa' hvXb
        · have hvXb' : v ∈ applyMask (Xb.map (fun x => decide (x ≠ a))) Xb := by
            rw [applyMask_map_self, List.mem_filter]
            exact ⟨hvXb, by simpa using hva⟩
          exact rccLoop_xor coins v todo hcv' (k + 1)
            Xa (applyMask (Xb.map (fun x => decide (x ≠ a))) Xb)
            ya (applyMask (Xb.map (fun x => decide (x ≠ a))) yb) hvXa hvXb'
      · exact rccLoop_xor coins v todo hcv' k Xa Xb ya yb hvXa hvXb

theorem rccLoop_align {α β : Type} [DecidableEq α] (coins : ℕ → Bool) :
    ∀ (todo : List α) (k : ℕ) (Xa Xb : List α) (ya yb : List β),
      Xa.length = ya.length → Xb.length = yb.length →
      (rccLoop coins todo k Xa Xb ya yb).Xa.length
          = (rccLoop coins todo k Xa Xb ya yb).ya.length ∧
      (rccLoop coins todo k Xa Xb ya yb).Xb.length
          = (rccLoop coins todo k Xa Xb ya yb).yb.length ∧
      ((rccLoop coins todo k Xa Xb ya yb).Xa.zip
          (rccLoop coins todo k Xa Xb ya yb).ya).Sublist (Xa.zip ya) ∧
      ((rccLoop coins todo k Xa Xb ya yb).Xb.zip
          (rccLoop coins todo k Xa Xb ya yb).yb).Sublist (Xb.zip yb)
  | [], _, _, _, _, _, h1, h2 =>
    ⟨h1, h2, List.Sublist.refl _, List.Sublist.refl _⟩
  | a :: todo, k, Xa, Xb, ya, yb, h1, h2 => by
    simp only [rccLoop]
    split
    · split
      · have hlen : (applyMask (Xa.map (fun x => decide (x ≠ a))) Xa).length
            = (applyMask (Xa.map (fun x => decide (x ≠ a))) ya).length := by
          rw [applyMask_map_self]
          rw [applyMask_map_length _ Xa ya h1]
        have ih := rccLoop_align coins todo (k + 1)
          (applyMask (Xa.map (fun x => decide (x ≠ a))) Xa) Xb
          (applyMask (Xa.map (fun x => decide (x ≠ a))) ya) yb hlen h2
        refine ⟨ih.1, ih.2.1, ih.2.2.1.trans ?_, ih.2.2.2⟩
        rw [applyMask_map_zip _ Xa ya h1]
        exact List.filter_sublist _
      · have hlen : (applyMask (Xb.map (fun x => decide (x ≠ a))) Xb).length
            = (applyMask (Xb.map (fun x => decide (x ≠ a))) yb).length := by
          rw [applyMask_map_self]
          rw [applyMask_map_length _ Xb yb h2]
        have ih := rccLoop_align coins todo (k + 1)
          Xa (applyMask (Xb.map (fun x => decide (x ≠ a))) Xb)
          ya (applyMask (Xb.map (fun x => decide (x ≠ a))) yb) h1 hlen
        refine ⟨ih.1, ih.2.1, ih.2.2.1, ih.2.2.2.trans ?_⟩
        rw [applyMask_map_zip _ Xb yb h2]
        exact List.filter_sublist _
    · exact rccLoop_align coins todo k Xa Xb ya yb h1 h2

/-- Disjointness of the repaired arrays, for the top-level call (where the
iteration snapshot is the initial `X_a`). -/
theorem rcc_disjoint {α β : Type} [DecidableEq α] (coins : ℕ → Bool) (k : ℕ)
    (Xa Xb : List α) (ya yb : List β) :
    (remove_cross_contamination coins k Xa Xb ya yb).Xa.Disjoint
      (remove_cross_contamination coins k Xa Xb ya yb).Xb := by
  intro v hv1 hv2
  have hsub := (rccLoop_sublist coins Xa k Xa Xb ya yb).1
  have hmem : v ∈ Xa := hsub.mem hv1
  have h := rccLoop_common_mem coins v Xa k Xa Xb ya yb hv1 hv2
  exact h.2.2 hmem

/-- C5: for equal-length input pairs (X_a, y_a) and (X_b, y_b), the outputs of
`remove_cross_contamination` share no value between the two X sides, each
output X is a subsequence of its input, and each output y is filtered at
exactly the same positions as its paired X (the zipped output rows form a
subsequence of the zipped input rows, and the X/y lengths stay equal). -/
theorem C5_repair_alignment {α β : Type} [DecidableEq α] (coins : ℕ → Bool)
    (k : ℕ) (Xa Xb : List α) (ya yb : List β)
    (h1 : Xa.length = ya.length) (h2 : Xb.length = yb.length) :
    (remove_cross_contamination coins k Xa Xb ya yb).Xa.Disjoint
        (remove_cross_contamination coins k Xa Xb ya yb).Xb ∧
    (remove_cross_contamination coins k Xa Xb ya yb).Xa.Sublist Xa ∧
    (remove_cross_contamination coins k Xa Xb ya yb).Xb.Sublist Xb ∧
    (remove_cross_contamination coins k Xa Xb ya yb).Xa.length
        = (remove_cross_contamination coins k Xa Xb ya yb).ya.length ∧
    (remove_cross_contamination coins k Xa Xb ya yb).Xb.length
        = (remove_cross_contamination coins k Xa Xb ya yb).yb.length ∧
    ((remove_cross_contamination coins k Xa Xb ya yb).Xa.zip
        (remove_cross_contamination coins k Xa Xb ya yb).ya).Sublist (Xa.zip ya) ∧
    ((remove_cross_contamination coins k Xa Xb ya yb).Xb.zip
        (remove_cross_contamination coins k Xa Xb ya yb).yb).Sublist (Xb.zip yb) := by
  have hal := rccLoop_align coins Xa k Xa Xb ya yb h1 h2
  have hsub := rccLoop_sublist coins Xa k Xa Xb ya yb
  exact ⟨rcc_disjoint coins k Xa Xb ya yb, hsub.1, hsub.2, hal.1, hal.2.1,
    hal.2.2.1, hal.2.2.2⟩

/-- C5 witness: the alignment theorem applied at a concrete input
(A = [1,2] with labels ["a","b"], B = [2,3] with labels ["c","d"]). -/
theorem C5_repair_alignment_witness :
    (remove_cross_contamination (fun _ => true) 0 ([1, 2] : List ℤ) [2, 3]
        ["a", "b"] ["c", "d"]).Xa.Disjoint
      (remove_cross_contamination (fun _ => true) 0 ([1, 2] : List ℤ) [2, 3]
        ["a", "b"] ["c", "d"]).Xb ∧
    (remove_cross_contamination (fun _ => true) 0 ([1, 2] : List ℤ) [2, 3]
        ["a", "b"] ["c", "d"]).Xa.Sublist [1, 2] ∧
    (remove_cross_contamination (fun _ => true) 0 ([1, 2] : List ℤ) [2, 3]
        ["a", "b"] ["c", "d"]).Xb.Sublist [2, 3] ∧
    (remove_cross_contamination (fun _ => true) 0 ([1, 2] : List ℤ) [2, 3]
        ["a", "b"] ["c", "d"]).Xa.length
      = (remove_cross_contamination (fun _ => true) 0 ([1, 2] : List ℤ) [2, 3]
        ["a", "b"] ["c", "d"]).ya.length ∧
    (remove_cross_contamination (fun _ => true) 0 ([1, 2] : List ℤ) [2, 3]
        ["a", "b"] ["c", "d"]).Xb.length
      = (remove_cross_contamination (fun _ => true) 0 ([1, 2] : List ℤ) [2, 3]
        ["a", "b"] ["c", "d"]).yb.length ∧
    ((remove_cross_contamination (fun _ => true) 0 ([1, 2] : List ℤ) [2, 3]
        ["a", "b"] ["c", "d"]).Xa.zip
      (remove_cross_contamination (fun _ => true) 0 ([1, 2] : List ℤ) [2, 3]
        ["a", "b"] ["c", "d"]).ya).Sublist ([1, 2].zip ["a", "b"]) ∧
    ((remove_cross_contamination (fun _ => true) 0 ([1, 2] : List ℤ) [2, 3]
        ["a", "b"] ["c", "d"]).Xb.zip
      (remove_cross_contamination (fun _ => true) 0 ([1, 2] : List ℤ) [2, 3]
        ["a", "b"] ["c", "d"]).yb).Sublist ([2, 3].zip ["c", "d"]) :=
  C5_repair_alignment (fun _ => true) 0 [1, 2] [2, 3] ["a", "b"] ["c", "d"]
    (by decide) (by decide)

/-- C2 counterexample: with A = [3,3] and B = [3] the single common value 3 is
processed twice, not once — the loop iterates over the entry snapshot of `X_a`,
in which 3 occurs twice, and `3 ∈ X_b` still holds at the second visit after
the first draw removed 3 from A only. With the draw sequence
(first > 0.5, second ≤ 0.5) two coin flips are consumed and NEITHER side
retains the common value, refuting "exactly one coin flip is made, after which
exactly one of A or B still retains that value". -/
theorem C2_repair_once_counterexample :
    (remove_cross_contamination (fun k => decide (k = 0)) 0 ([3, 3] : List ℤ) [3]
      ["x", "x"] ["y"]).flips = 2 ∧
    (3 : ℤ) ∉ (remove_cross_contamination (fun k => decide (k = 0)) 0
      ([3, 3] : List ℤ) [3] ["x", "x"] ["y"]).Xa ∧
    (3 : ℤ) ∉ (remove_cross_contamination (fun k => decide (k = 0)) 0
      ([3, 3] : List ℤ) [3] ["x", "x"] ["y"]).Xb := by decide

/-- C2 amended: when each value common to `X_a` and `X_b` occurs at most once
in `X_a` (stated as: every value of `X_b` has occurrence count at most 1 in
`X_a`, which is vacuous for values missing from `X_a`; duplicated values
confined to one side are allowed, and the claim's own example
A = [1,2,3], B = [3,4,5] qualifies), `remove_cross_contamination` makes
exactly one coin flip per value of `X_a` that is common with `X_b`, after the
pass exactly one of the two sides retains each common value, and no other
values are altered (values absent from `X_b` keep their occurrence count in
the A output; values absent from `X_a` keep their occurrence count in the
B output). -/
theorem C2_repair_once_amended (coins : ℕ → Bool) (Xa Xb : List ℤ)
    (ya yb : List String) (hcom : ∀ x ∈ Xb, Xa.count x ≤ 1) :
    (remove_cross_contamination coins 0 Xa Xb ya yb).flips
        = (Xa.filter (fun a => decide (a ∈ Xb))).length ∧
    (∀ v : ℤ, v ∈ Xa → v ∈ Xb →
      ((v ∈ (remove_cross_contamination coins 0 Xa Xb ya yb).Xa)
        ↔ v ∉ (remove_cross_contamination coins 0 Xa Xb ya yb).Xb)) ∧
    (∀ v : ℤ, v ∉ Xb →
      (remove_cross_contamination coins 0 Xa Xb ya yb).Xa.count v
        = Xa.count v) ∧
    (∀ v : ℤ, v ∉ Xa →
      (remove_cross_contamination coins 0 Xa Xb ya yb).Xb.count v
        = Xb.count v) := by
  refine ⟨?_, ?_, ?_, ?_⟩
  · simpa using rccLoop_flips coins Xa 0 Xa Xb ya yb hcom
  · intro v hva hvb
    have hc1 : Xa.count v = 1 := by
      have hpos : 0 < Xa.count v := List.count_pos_iff.mpr hva
      have hle := hcom v hvb
      omega
    exact rccLoop_xor coins v Xa hc1 0 Xa Xb ya yb hva hvb
  · intro v hv
    exact rccLoop_count_Xa coins v Xa 0 Xa Xb ya yb hv
  · intro v hv
    exact rccLoop_count_Xb coins v Xa hv 0 Xa Xb ya yb

/-- C2 witness: the amended theorem applied at A = [1,1,3], B = [3,4,5] —
the common value 3 occurs once in A while the non-common value 1 is
duplicated there, so the input is covered by the amended precondition without
A being duplicate-free: one flip total (3 is the only common value), exactly
one side retains 3, and the counts of the uncommon values 1 (A side, both
occurrences) and 4 (B side) are unchanged. -/
theorem C2_repair_once_witness :
    (remove_cross_contamination (fun _ => true) 0 ([1, 1, 3] : List ℤ) [3, 4, 5]
        ["a", "a", "c"] ["d", "e", "f"]).flips
      = (([1, 1, 3] : List ℤ).filter (fun a => decide (a ∈ [3, 4, 5]))).length ∧
    ((3 : ℤ) ∈ (remove_cross_contamination (fun _ => true) 0 ([1, 1, 3] : List ℤ)
        [3, 4, 5] ["a", "a", "c"] ["d", "e", "f"]).Xa
      ↔ (3 : ℤ) ∉ (remove_cross_contamination (fun _ => true) 0 ([1, 1, 3] : List ℤ)
        [3, 4, 5] ["a", "a", "c"] ["d", "e", "f"]).Xb) ∧
    (remove_cross_contamination (fun _ => true) 0 ([1, 1, 3] : List ℤ) [3, 4, 5]
        ["a", "a", "c"] ["d", "e", "f"]).Xa.count 1
      = ([1, 1, 3] : List ℤ).count 1 ∧
    (remove_cross_contamination (fun _ => true) 0 ([1, 1, 3] : List ℤ) [3, 4, 5]
        ["a", "a", "c"] ["d", "e", "f"]).Xb.count 4
      = ([3, 4, 5] : List ℤ).count 4 := by
  have h := C2_repair_once_amended (fun _ => true) [1, 1, 3] [3, 4, 5]
    ["a", "a", "c"] ["d", "e", "f"] (by decide)
  exact ⟨h.1, h.2.1 3 (by decide) (by decide), h.2.2.1 1 (by decide),
    h.2.2.2 4 (by decide)⟩

/-! ## Lemmas about the singleton-extraction fold of `stratify_prep` -/

theorem extract_list_decomp {γ : Type} (xs : List γ) (j : ℕ) (hj : j < xs.length) :
    xs = xs.take j ++ xs[j] :: xs.drop (j + 1) := by
  conv_lhs => rw [← List.take_append_drop j xs]
  rw [List.drop_eq_getElem_cons hj]

theorem count_label_eq_countP (ps : List ILPair) (l : String) :
    (ps.map (·.2)).count l = ps.countP (fun p => p.2 == l) := by
  unfold List.count
  rw [List.countP_map]
  rfl

theorem extract_single_count_ne (st : List ILPair × List ℤ) (l' l : String)
    (hne : l ≠ l') :
    ((extract_single st l').1.map (·.2)).count l = (st.1.map (·.2)).count l := by
  simp only [extract_single]
  split
  · rename_i hj
    have hlab : (st.1[st.1.findIdx (fun p => p.2 == l')]).2 = l' := by
      simpa using List.findIdx_getElem (w := hj)
    have hjL : st.1.findIdx (fun p => p.2 == l') < (st.1.map (·.2)).length := by
      simpa using hj
    have hL : (st.1.map (·.2))[st.1.findIdx (fun p => p.2 == l')] = l' := by
      rw [List.getElem_map]
      exact hlab
    rw [List.eraseIdx_eq_take_drop_succ]
    conv_rhs => rw [extract_list_decomp (st.1.map (·.2)) _ hjL]
    have hbeq : (l == l') = false := by simpa using hne
    have hbeq' : (l' == l) = false := by simpa using hne.symm
    simp only [List.map_append, List.map_take, List.map_drop, List.count_append,
      List.count_cons, hL, hbeq, hbeq', if_false, Bool.false_eq_true]
    omega
  · rfl

theorem extract_single_count_self (st : List ILPair × List ℤ) (l : String)
    (hle : (st.1.map (·.2)).count l ≤ 1) :
    ((extract_single st l).1.map (·.2)).count l = 0 := by
  by_cases hmem : l ∈ st.1.map (·.2)
  · obtain ⟨p, hp, hpl⟩ := List.mem_map.mp hmem
    have hj : st.1.findIdx (fun q => q.2 == l) < st.1.length :=
      List.findIdx_lt_length.mpr ⟨p, hp, by simp [hpl]⟩
    have hcount : (st.1.map (·.2)).count l = 1 := by
      have hpos : 0 < (st.1.map (·.2)).count l := List.count_pos_iff.mpr hmem
      omega
    have hlab : (st.1[st.1.findIdx (fun q => q.2 == l)]).2 = l := by
      simpa using List.findIdx_getElem (w := hj)
    have hjL : st.1.findIdx (fun q => q.2 == l) < (st.1.map (·.2)).length := by
      simpa using hj
    have hL : (st.1.map (·.2))[st.1.findIdx (fun q => q.2 == l)] = l := by
      rw [List.getElem_map]
      exact hlab
    simp only [extract_single, if_pos hj]
    rw [List.eraseIdx_eq_take_drop_succ]
    rw [extract_list_decomp (st.1.map (·.2)) _ hjL] at hcount
    simp only [List.count_append, List.count_cons, hL, beq_self_eq_true,
      if_true] at hcount
    simp only [List.map_append, List.map_take, List.map_drop, List.count_append]
    omega
  · have hj : ¬ st.1.findIdx (fun q => q.2 == l) < st.1.length := by
      rw [List.findIdx_lt_length]
      rintro ⟨p, hp, hpl⟩
      exact hmem (List.mem_map.mpr ⟨p, hp, by simpa using hpl⟩)
    simp only [extract_single, if_neg hj]
    exact List.count_eq_zero.mpr hmem

theorem extract_single_sf_mem (st : List ILPair × List ℤ) (l : String) (i : ℤ)
    (hmem : (i, l) ∈ st.1) (hcount : (st.1.map (·.2)).count l = 1) :
    i ∈ (extract_single st l).2 := by
  have hj : st.1.findIdx (fun q => q.2 == l) < st.1.length :=
    List.findIdx_lt_length.mpr ⟨(i, l), hmem, by simp⟩
  have hlab : (st.1[st.1.findIdx (fun q => q.2 == l)]).2 = l := by
    simpa using List.findIdx_getElem (w := hj)
  have hflen : (st.1.filter (fun q => q.2 == l)).length = 1 := by
    rw [← List.countP_eq_length_filter, ← count_label_eq_countP]
    exact hcount
  obtain ⟨q, hq⟩ := List.length_eq_one.mp hflen
  have he : st.1[st.1.findIdx (fun q => q.2 == l)]
      ∈ st.1.filter (fun q => q.2 == l) :=
    List.mem_filter.mpr ⟨List.getElem_mem hj, by simp [hlab]⟩
  have hi : (i, l) ∈ st.1.filter (fun q => q.2 == l) :=
    List.mem_filter.mpr ⟨hmem, by simp⟩
  rw [hq, List.mem_singleton] at he hi
  have heq : st.1[st.1.findIdx (fun q => q.2 == l)] = (i, l) := by
    rw [he, ← hi]
  simp only [extract_single, if_pos hj]
  rw [List.getD_eq_getElem _ _ hj, heq]
  simp

theorem extract_single_mem_ne (st : List ILPair × List ℤ) (l' l : String)
    (i : ℤ) (hne : l ≠ l') (hmem : (i, l) ∈ st.1) :
    (i, l) ∈ (extract_single st l').1 := by
  simp only [extract_single]
  split
  · rename_i hj
    have hlab : (st.1[st.1.findIdx (fun p => p.2 == l')]).2 = l' := by
      simpa using List.findIdx_getElem (w := hj)
    rw [List.eraseIdx_eq_take_drop_succ]
    rw [extract_list_decomp st.1 _ hj, List.mem_append, List.mem_cons] at hmem
    rw [List.mem_append]
    rcases hmem with h | h | h
    · exact Or.inl h
    · exact absurd ((congrArg Prod.snd h).trans hlab) hne
    · exact Or.inr h
  · exact hmem

theorem foldl_extract_sublist :
    ∀ (S : List String) (st : List ILPair × List ℤ),
      (S.foldl extract_single st).1.Sublist st.1
  | [], _ => List.Sublist.refl _
  | l :: S, st => by
    have h1 : (extract_single st l).1.Sublist st.1 := by
      simp only [extract_single]
      split
      · exact List.eraseIdx_sublist _ _
      · exact List.Sublist.refl _
    exact (foldl_extract_sublist S (extract_single st l)).trans h1

theorem foldl_extract_sf_mono :
    ∀ (S : List String) (st : List ILPair × List ℤ) (x : ℤ),
      x ∈ st.2 → x ∈ (S.foldl extract_single st).2
  | [], _, _, hx => hx
  | l :: S, st, x, hx => by
    apply foldl_extract_sf_mono S (extract_single st l) x
    simp only [extract_single]
    split
    · exact List.mem_append_left _ hx
    · exact hx

theorem foldl_extract_count_zero :
    ∀ (S : List String) (st : List ILPair × List ℤ) (l : String),
      l ∈ S → (st.1.map (·.2)).count l ≤ 1 →
      ((S.foldl extract_single st).1.map (·.2)).count l = 0
  | [], _, _, h, _ => absurd h (List.not_mem_nil _)
  | l' :: S, st, l, hS, hle => by
    by_cases heq : l' = l
    · subst heq
      have h0 := extract_single_count_self st l' hle
      have hsub := (foldl_extract_sublist S (extract_single st l')).map (·.2)
      have hcle := hsub.count_le l'
      have : ((l' :: S).foldl extract_single st) = S.foldl extract_single (extract_single st l') := rfl
      rw [this]
      omega
    · have hne : l ≠ l' := fun h => heq h.symm
      have hS' : l ∈ S := by
        rcases List.mem_cons.mp hS with h | h
        · exact absurd h.symm heq
        · exact h
      have hcnt := extract_single_count_ne st l' l hne
      exact foldl_extract_count_zero S (extract_single st l') l hS'
        (by rw [hcnt]; exact hle)

theorem foldl_extract_sf_mem :
    ∀ (S : List String) (st : List ILPair × List ℤ) (i : ℤ) (l : String),
      l ∈ S → (i, l) ∈ st.1 → (st.1.map (·.2)).count l = 1 →
      i ∈ (S.foldl extract_single st).2
  | [], _, _, _, h, _, _ => absurd h (List.not_mem_nil _)
  | l' :: S, st, i, l, hS, hmem, hcount => by
    by_cases heq : l' = l
    · subst heq
      exact foldl_extract_sf_mono S (extract_single st l') i
        (extract_single_sf_mem st l' i hmem hcount)
    · have hne : l ≠ l' := fun h => heq h.symm
      have hS' : l ∈ S := by
        rcases List.mem_cons.mp hS with h | h
        · exact absurd h.symm heq
        · exact h
      exact foldl_extract_sf_mem S (extract_single st l') i l hS'
        (extract_single_mem_ne st l' l i hne hmem)
        (by rw [extract_single_count_ne st l' l hne]; exact hcount)

theorem mem_insertStr (x y : String) :
    ∀ (L : List String), x ∈ insertStr y L ↔ x = y ∨ x ∈ L
  | [] => by simp [insertStr]
  | z :: zs => by
    simp only [insertStr]
    split
    · simp [List.mem_cons]
    · rw [List.mem_cons, mem_insertStr x y zs, List.mem_cons]
      tauto

theorem mem_sortStr (x : String) : ∀ (L : List String), x ∈ sortStr L ↔ x ∈ L
  | [] => Iff.rfl
  | y :: ys => by
    simp only [sortStr]
    rw [mem_insertStr x y (sortStr ys), mem_sortStr x ys, List.mem_cons]

theorem mem_singleton_labels (labels : List String) (l : String)
    (hcount : labels.count l = 1) : l ∈ singleton_labels labels := by
  unfold singleton_labels
  rw [List.mem_filter, mem_sortStr, List.mem_dedup]
  refine ⟨List.count_pos_iff.mp (by omega), by simp [hcount]⟩

theorem stratify_prep_sublist (itc : List (ℤ × List String)) :
    (stratify_prep itc).1.Sublist (expanded_list itc) :=
  foldl_extract_sublist _ _

theorem stratify_prep_no_singleton (itc : List (ℤ × List String)) (l : String)
    (hcount : ((expanded_list itc).map (·.2)).count l = 1) :
    l ∉ (stratify_prep itc).1.map (·.2) := by
  have h0 := foldl_extract_count_zero
    (singleton_labels ((expanded_list itc).map (·.2)))
    (expanded_list itc, []) l
    (mem_singleton_labels _ l hcount) (le_of_eq hcount)
  exact List.count_eq_zero.mp h0

theorem stratify_prep_sf_mem (itc : List (ℤ × List String)) (i : ℤ) (l : String)
    (hmem : (i, l) ∈ expanded_list itc)
    (hcount : ((expanded_list itc).map (·.2)).count l = 1) :
    i ∈ (stratify_prep itc).2 :=
  foldl_extract_sf_mem _ _ i l (mem_singleton_labels _ l hcount) hmem hcount

theorem stratify_prep_fst_not_mem (itc : List (ℤ × List String)) (i : ℤ)
    (hall : ∀ l, (i, l) ∈ expanded_list itc →
      ((expanded_list itc).map (·.2)).count l = 1) :
    i ∉ (stratify_prep itc).1.map (·.1) := by
  intro hmem
  obtain ⟨p, hp, hpi⟩ := List.mem_map.mp hmem
  have hpe : p ∈ expanded_list itc := (stratify_prep_sublist itc).mem hp
  have hp2 : (i, p.2) ∈ expanded_list itc := by
    have : p = (i, p.2) := by
      rw [← hpi]
    rwa [this] at hpe
  have hcount := hall p.2 hp2
  exact stratify_prep_no_singleton itc p.2 hcount (List.mem_map.mpr ⟨p, hp, rfl⟩)

/-! ## Lemmas about `stratify_main` and `stratify_samples` -/

theorem rcc_Xa_sub {α β : Type} [DecidableEq α] (coins : ℕ → Bool) (k : ℕ)
    (Xa Xb : List α) (ya yb : List β) {x : α}
    (hx : x ∈ (remove_cross_contamination coins k Xa Xb ya yb).Xa) : x ∈ Xa :=
  (rccLoop_sublist coins Xa k Xa Xb ya yb).1.mem hx

theorem rcc_Xb_sub {α β : Type} [DecidableEq α] (coins : ℕ → Bool) (k : ℕ)
    (Xa Xb : List α) (ya yb : List β) {x : α}
    (hx : x ∈ (remove_cross_contamination coins k Xa Xb ya yb).Xb) : x ∈ Xb :=
  (rccLoop_sublist coins Xa k Xa Xb ya yb).2.mem hx

theorem tts_left_mem (tts : TTS) (hc : TTSContract tts) (ps : List ILPair)
    (q : ℚ) (s : ℤ) {p : ILPair} (hp : p ∈ (tts ps q s).1) : p ∈ ps :=
  (hc ps q s).mem_iff.mp (List.mem_append_left _ hp)

theorem tts_right_mem (tts : TTS) (hc : TTSContract tts) (ps : List ILPair)
    (q : ℚ) (s : ℤ) {p : ILPair} (hp : p ∈ (tts ps q s).2) : p ∈ ps :=
  (hc ps q s).mem_iff.mp (List.mem_append_right _ hp)

theorem stratify_main_train_mem (tts : TTS) (coins : ℕ → Bool)
    (remaining : List ILPair) (sf : List ℤ) (seed : ℤ) (t v : ℚ) (i : ℤ)
    (hi : i ∈ sf) :
    i ∈ (stratify_main tts coins remaining sf seed t v).1 := by
  by_cases ht : t = 0 <;>
    simp only [stratify_main, ht, if_true, if_false, if_pos, if_neg,
      not_false_iff] <;>
    simp only [List.mem_dedup] <;>
    exact List.mem_append_right _ hi

theorem stratify_main_val_sub (tts : TTS) (hc : TTSContract tts)
    (coins : ℕ → Bool) (remaining : List ILPair) (sf : List ℤ) (seed : ℤ)
    (t v : ℚ) (x : ℤ)
    (hx : x ∈ (stratify_main tts coins remaining sf seed t v).2.1) :
    x ∈ remaining.map (·.1) := by
  by_cases ht : t = 0
  · simp only [stratify_main, ht, if_true, if_pos,
      List.mem_dedup] at hx
    have hxb := rcc_Xb_sub _ _ _ _ _ _ hx
    obtain ⟨p, hp, hpx⟩ := List.mem_map.mp hxb
    exact List.mem_map.mpr ⟨p, tts_right_mem tts hc _ _ _ hp, hpx⟩
  · simp only [stratify_main, ht, if_false, if_neg, not_false_iff,
      List.mem_dedup] at hx
    have hxa := rcc_Xa_sub _ _ _ _ _ _ hx
    obtain ⟨p, hp, hpx⟩ := List.mem_map.mp hxa
    have hpz := tts_left_mem tts hc _ _ _ hp
    obtain ⟨i, y⟩ := p
    have hiz := (List.of_mem_zip hpz).1
    have hib := rcc_Xb_sub _ _ _ _ _ _ hiz
    obtain ⟨q, hq, hqx⟩ := List.mem_map.mp hib
    exact List.mem_map.mpr ⟨q, tts_right_mem tts hc _ _ _ hq, by rw [hqx, ← hpx]⟩

theorem stratify_main_test_sub (tts : TTS) (hc : TTSContract tts)
    (coins : ℕ → Bool) (remaining : List ILPair) (sf : List ℤ) (seed : ℤ)
    (t v : ℚ) (x : ℤ) (T : List ℤ)
    (hT : (stratify_main tts coins remaining sf seed t v).2.2 = some T)
    (hx : x ∈ T) : x ∈ remaining.map (·.1) := by
  by_cases ht : t = 0
  · simp only [stratify_main, ht, if_true, if_pos] at hT
    exact absurd hT (by simp)
  · simp only [stratify_main, ht, if_false, if_neg, not_false_iff,
      ] at hT
    rw [Option.some.injEq] at hT
    rw [← hT, List.mem_dedup] at hx
    have hxb := rcc_Xb_sub _ _ _ _ _ _ hx
    obtain ⟨p, hp, hpx⟩ := List.mem_map.mp hxb
    have hpz := tts_right_mem tts hc _ _ _ hp
    obtain ⟨i, y⟩ := p
    have hiz := (List.of_mem_zip hpz).1
    have hib := rcc_Xb_sub _ _ _ _ _ _ hiz
    obtain ⟨q, hq, hqx⟩ := List.mem_map.mp hib
    exact List.mem_map.mpr ⟨q, tts_right_mem tts hc _ _ _ hq, by rw [hqx, ← hpx]⟩

theorem stratify_main_disjoint (tts : TTS) (hc : TTSContract tts)
    (coins : ℕ → Bool) (remaining : List ILPair) (sf : List ℤ) (seed : ℤ)
    (t v : ℚ) :
    (∀ x ∈ (stratify_main tts coins remaining sf seed t v).2.1,
      ∀ T, (stratify_main tts coins remaining sf seed t v).2.2 = some T →
        x ∉ T) ∧
    (∀ x ∈ (stratify_main tts coins remaining sf seed t v).1,
      x ∈ (stratify_main tts coins remaining sf seed t v).2.1 → x ∈ sf) ∧
    (∀ x ∈ (stratify_main tts coins remaining sf seed t v).1,
      ∀ T, (stratify_main tts coins remaining sf seed t v).2.2 = some T →
        x ∈ T → x ∈ sf) := by
  by_cases ht : t = 0
  · simp only [stratify_main, ht, if_true, if_pos]
    refine ⟨by simp, ?_, by simp⟩
    intro x hxt hxv
    rw [List.mem_dedup] at hxt hxv
    rcases List.mem_append.mp hxt with hxa | hxs
    · exact absurd hxv (fun hv => rcc_disjoint _ _ _ _ _ _ hxa hv)
    · exact hxs
  · simp only [stratify_main, ht, if_false, if_neg, not_false_iff,
      ]
    refine ⟨?_, ?_, ?_⟩
    · intro x hxv T hT hxT
      rw [Option.some.injEq] at hT
      rw [← hT, List.mem_dedup] at hxT
      rw [List.mem_dedup] at hxv
      exact rcc_disjoint _ _ _ _ _ _ hxv hxT
    · intro x hxt hxv
      rw [List.mem_dedup] at hxt hxv
      rcases List.mem_append.mp hxt with hxa | hxs
      · exfalso
        have hva := rcc_Xa_sub _ _ _ _ _ _ hxv
        obtain ⟨p, hp, hpx⟩ := List.mem_map.mp hva
        have hpz := tts_left_mem tts hc _ _ _ hp
        obtain ⟨i, y⟩ := p
        have hiz := (List.of_mem_zip hpz).1
        exact rcc_disjoint _ _ _ _ _ _ hxa (hpx ▸ hiz)
      · exact hxs
    · intro x hxt T hT hxT
      rw [Option.some.injEq] at hT
      rw [← hT, List.mem_dedup] at hxT
      rw [List.mem_dedup] at hxt
      rcases List.mem_append.mp hxt with hxa | hxs
      · exfalso
        have hvb := rcc_Xb_sub _ _ _ _ _ _ hxT
        obtain ⟨p, hp, hpx⟩ := List.mem_map.mp hvb
        have hpz := tts_right_mem tts hc _ _ _ hp
        obtain ⟨i, y⟩ := p
        have hiz := (List.of_mem_zip hpz).1
        exact rcc_disjoint _ _ _ _ _ _ hxa (hpx ▸ hiz)
      · exact hxs

theorem concrete_tts_contract : TTSContract concrete_tts := by
  intro ps q s
  simp only [concrete_tts]
  refine List.perm_append_comm.trans ?_
  rw [List.take_append_drop]

/-- C1 counterexample: the mapping `{5: {A, B}, 6: {B}}` is non-empty, label B
is non-singleton (support 2), and the fractions val = test = 1/4 are valid,
yet the returned train and test lists both contain image index 5: label A is a
singleton, so its image 5 is force-appended to train after the repair, while
image 5's other pair (5, B) went to the temp side of the split and ended up in
test. The modelled library split realises one admissible seeded outcome. -/
theorem C1_stratified_disjoint_counterexample :
    (0 : ℚ) < 1/4 ∧ (1/4 : ℚ) + 1/4 < 1 ∧
    ((expanded_list [(5, ["A", "B"]), (6, ["B"])]).map (·.2)).count "B" = 2 ∧
    stratify_samples concrete_tts (fun _ => true) [(5, ["A", "B"]), (6, ["B"])]
      0 (1/4) (1/4) = Except.ok ([6, 5], [], some [5]) ∧
    (5 : ℤ) ∈ ([6, 5] : List ℤ) ∧ (5 : ℤ) ∈ ([5] : List ℤ) :=
  ⟨by with_unfolding_all decide, by with_unfolding_all decide, by decide,
   by with_unfolding_all decide, by decide, by decide⟩

/-- C1 amended: for every splitter outcome satisfying the partition contract,
the val and test lists of `_stratify_samples` are disjoint, and the train list
can only overlap val or test at an image index that was collected into
`single_files` (an index carrying a singleton label); away from the
force-appended singleton carriers the three lists are pairwise disjoint. -/
theorem C1_stratified_disjoint_amended (tts : TTS) (coins : ℕ → Bool)
    (itc : List (ℤ × List String)) (seed : ℤ) (t v : ℚ)
    (hc : TTSContract tts) (tr va : List ℤ) (te : Option (List ℤ))
    (hok : stratify_samples tts coins itc seed t v = Except.ok (tr, va, te)) :
    (∀ x ∈ va, ∀ T, te = some T → x ∉ T) ∧
    (∀ x ∈ tr, x ∈ va → x ∈ (stratify_prep itc).2) ∧
    (∀ x ∈ tr, ∀ T, te = some T → x ∈ T → x ∈ (stratify_prep itc).2) := by
  simp only [stratify_samples] at hok
  by_cases h1 : expanded_list itc = []
  · rw [if_pos h1] at hok
    exact absurd hok (by simp)
  · rw [if_neg h1] at hok
    by_cases h2 : (stratify_prep itc).1.map (·.1) = []
        ∨ (stratify_prep itc).1.map (·.2) = []
    · rw [if_pos h2, Except.ok.injEq] at hok
      have htr : tr = [] := (congrArg (fun p => p.1) hok).symm
      have hva : va = [] := (congrArg (fun p => p.2.1) hok).symm
      subst htr hva
      exact ⟨by simp, by simp, by simp⟩
    · rw [if_neg h2, Except.ok.injEq] at hok
      have hd := stratify_main_disjoint tts hc coins (stratify_prep itc).1
        (stratify_prep itc).2 seed t v
      rw [hok] at hd
      exact hd

/-- C1 witness: the amended theorem applied at the counterexample input shows
that the index 5, present in both train and test there, is indeed one of the
collected `single_files`. -/
theorem C1_stratified_disjoint_witness :
    (5 : ℤ) ∈ (stratify_prep [(5, ["A", "B"]), (6, ["B"])]).2 := by
  have h := C1_stratified_disjoint_amended concrete_tts (fun _ => true)
    [(5, ["A", "B"]), (6, ["B"])] 0 (1/4) (1/4) concrete_tts_contract
    [6, 5] [] (some [5]) (by with_unfolding_all decide)
  exact h.2.2 5 (by decide) [5] rfl (by decide)

/-- C3 counterexample: in the mapping `{5: {A, B}, 6: {B}}` the label A has
dataset-wide support exactly 1 and is carried by image 5, yet with
val = 1/4, test = 0 the returned val list contains 5 (the pair (5, B) went to
the temp side of the split while 5 was force-appended to train), refuting
"never in the returned val or test list". -/
theorem C3_singleton_train_counterexample :
    ((expanded_list [(5, ["A", "B"]), (6, ["B"])]).map (·.2)).count "A" = 1 ∧
    stratify_samples concrete_tts (fun _ => true) [(5, ["A", "B"]), (6, ["B"])]
      0 0 (1/4) = Except.ok ([6, 5], [5], none) ∧
    (5 : ℤ) ∈ ([5] : List ℤ) :=
  ⟨by decide, by with_unfolding_all decide, by decide⟩

/-- C3 amended: for every splitter outcome satisfying the partition contract:
(1) an image index carrying a singleton label is force-appended to the train
list whenever the post-removal pair list is non-empty (the non-degenerate
path); (2) an image index ALL of whose labels are singletons never appears in
the val or test list. (An index carrying both a singleton and a non-singleton
label can additionally appear in val or test, as the counterexample shows.) -/
theorem C3_singleton_train_amended (tts : TTS) (coins : ℕ → Bool)
    (itc : List (ℤ × List String)) (seed : ℤ) (t v : ℚ)
    (hc : TTSContract tts) (i : ℤ) (l : String)
    (hmem : (i, l) ∈ expanded_list itc)
    (hcount : ((expanded_list itc).map (·.2)).count l = 1) :
    ((stratify_prep itc).1 ≠ [] →
      ∀ tr va te, stratify_samples tts coins itc seed t v
          = Except.ok (tr, va, te) → i ∈ tr) ∧
    ((∀ l', (i, l') ∈ expanded_list itc →
        ((expanded_list itc).map (·.2)).count l' = 1) →
      ∀ tr va te, stratify_samples tts coins itc seed t v
          = Except.ok (tr, va, te) →
        i ∉ va ∧ ∀ T, te = some T → i ∉ T) := by
  have h1 : ¬ expanded_list itc = [] := by
    intro h
    rw [h] at hmem
    exact List.not_mem_nil _ hmem
  constructor
  · intro hne tr va te hok
    simp only [stratify_samples, if_neg h1] at hok
    have h2 : ¬((stratify_prep itc).1.map (·.1) = []
        ∨ (stratify_prep itc).1.map (·.2) = []) := by
      simp [List.map_eq_nil_iff, hne]
    rw [if_neg h2, Except.ok.injEq] at hok
    have hsf : i ∈ (stratify_prep itc).2 :=
      stratify_prep_sf_mem itc i l hmem hcount
    have hm := stratify_main_train_mem tts coins (stratify_prep itc).1
      (stratify_prep itc).2 seed t v i hsf
    rw [hok] at hm
    exact hm
  · intro hall tr va te hok
    have hnm : i ∉ (stratify_prep itc).1.map (·.1) :=
      stratify_prep_fst_not_mem itc i hall
    simp only [stratify_samples, if_neg h1] at hok
    by_cases h2 : (stratify_prep itc).1.map (·.1) = []
        ∨ (stratify_prep itc).1.map (·.2) = []
    · rw [if_pos h2, Except.ok.injEq] at hok
      have hva : va = [] := (congrArg (fun p => p.2.1) hok).symm
      have hte : te = some [] := (congrArg (fun p => p.2.2) hok).symm
      subst hva hte
      refine ⟨by simp, ?_⟩
      rintro T ⟨rfl⟩
      simp
    · rw [if_neg h2, Except.ok.injEq] at hok
      constructor
      · intro hiva
        apply hnm
        apply stratify_main_val_sub tts hc coins (stratify_prep itc).1
          (stratify_prep itc).2 seed t v i
        rw [hok]
        exact hiva
      · intro T hT hiT
        apply hnm
        apply stratify_main_test_sub tts hc coins (stratify_prep itc).1
          (stratify_prep itc).2 seed t v i T
        · rw [hok]
          exact hT
        · exact hiT

/-- C3 witness: the amended theorem applied at `{5: {A}, 6: {B}, 7: {B}}` with
val = 1/4, test = 0, where the result is train = [7, 5], val = [6]: the
singleton carrier 5 lands in train and not in val. -/
theorem C3_singleton_train_witness :
    (5 : ℤ) ∈ ([7, 5] : List ℤ) ∧ (5 : ℤ) ∉ ([6] : List ℤ) := by
  have h := C3_singleton_train_amended concrete_tts (fun _ => true)
    [(5, ["A"]), (6, ["B"]), (7, ["B"])] 0 0 (1/4) concrete_tts_contract 5 "A"
    (by decide) (by decide)
  have hall : ∀ l', ((5 : ℤ), l')
        ∈ expanded_list [(5, ["A"]), (6, ["B"]), (7, ["B"])] →
      ((expanded_list [(5, ["A"]), (6, ["B"]), (7, ["B"])]).map (·.2)).count l'
        = 1 := by
    intro l' hl'
    have he : expanded_list [((5 : ℤ), ["A"]), (6, ["B"]), (7, ["B"])]
        = [(5, "A"), (6, "B"), (7, "B")] := by decide
    rw [he] at hl'
    rcases List.mem_cons.mp hl' with h' | hl'
    · rw [Prod.mk.injEq] at h'
      rw [h'.2]
      decide
    · rcases List.mem_cons.mp hl' with h' | hl'
      · rw [Prod.mk.injEq] at h'
        exact absurd h'.1 (by decide)
      · rcases List.mem_cons.mp hl' with h' | hl'
        · rw [Prod.mk.injEq] at h'
          exact absurd h'.1 (by decide)
        · exact absurd hl' (List.not_mem_nil _)
  refine ⟨?_, ?_⟩
  · exact h.1 (by decide) [7, 5] [6] none (by with_unfolding_all decide)
  · exact (h.2 hall [7, 5] [6] none (by with_unfolding_all decide)).1

/-- C4: `_stratify_samples` on the empty mapping raises rather than returning
empty lists: `file_indices, labels = zip(*expanded_list)` unpacks `zip()` of
nothing into two targets, a `ValueError`, before the emptiness guard of
line 207 can run. The guard is reached only when the expansion was non-empty
but every pair carried a singleton label — the all-singleton degenerate input,
where three empty lists are indeed returned without error (second conjunct). -/
theorem C4_degenerate_crash (tts : TTS) (coins : ℕ → Bool) (seed : ℤ)
    (t v : ℚ) :
    stratify_samples tts coins [] seed t v
      = Except.error "ValueError: not enough values to unpack (expected 2, got 0)" ∧
    stratify_samples tts coins [(0, ["A"]), (1, ["B"])] seed t v
      = Except.ok ([], [], some []) :=
  ⟨rfl, rfl⟩

/-! ## Claims about the `split_dataset` orchestration -/

theorem pyInt_eq_floor (q : ℚ) : pyInt q = ⌊q⌋ := Rat.floor_def.symm

/-- C6 (code bug): the `force_resplit` parameter of `split_dataset` is
accepted (line 249) and documented ("Discard previous split and create a new
one") but never consulted: the result is the same for any two values of the
flag, and whenever the split directory for the derived identity already
exists, no split-creating effect (directory creation or file write) is
performed — also with `force_resplit = True`. -/
theorem C6_force_resplit_ignored :
    (∀ (fs : DatasetFs) (vp tp : Option ℚ) (sp : Option ℤ) (m f1 f2 : Bool),
      split_dataset fs vp tp f1 sp m = split_dataset fs vp tp f2 sp m) ∧
    (∀ (fs : DatasetFs) (v t : ℚ) (seed : ℤ) (f m : Bool),
      fs.splitDirExists (split_id v t seed) = true →
      ((split_dataset fs (some v) (some t) f (some seed) m).1.filter
        FsEvent.isWriteLike) = []) := by
  constructor
  · intro fs vp tp sp m f1 f2
    rfl
  · intro fs v t seed f m hex
    simp only [split_dataset]
    split
    · rfl
    · split
      · rfl
      · split
        · rfl
        · simp only [hex, FsEvent.isWriteLike, eq_self_iff_true, if_true,
            List.filter_eq_nil_iff]
          intro a ha
          split at ha <;> fin_cases ha <;> simp [FsEvent.isWriteLike]

/-- C6 witness: with every split directory reported as existing and
`force_resplit = True`, the run performs no split-creating effect, and the
trace is identical to the `force_resplit = False` run. -/
theorem C6_force_resplit_ignored_witness :
    split_dataset ⟨fun _ => true, true, true, true⟩ (some (1/10)) (some (2/10))
        true (some 0) false
      = split_dataset ⟨fun _ => true, true, true, true⟩ (some (1/10))
        (some (2/10)) false (some 0) false ∧
    ((split_dataset ⟨fun _ => true, true, true, true⟩ (some (1/10))
        (some (2/10)) true (some 0) false).1.filter FsEvent.isWriteLike) = [] :=
  ⟨C6_force_resplit_ignored.1 ⟨fun _ => true, true, true, true⟩ (some (1/10))
      (some (2/10)) (some 0) false true false,
   C6_force_resplit_ignored.2 ⟨fun _ => true, true, true, true⟩ (1/10) (2/10)
      0 true false rfl⟩

/-- C7 counterexample: with an invalid validation percentage (2), the run
still reads the annotation listing and creates the `lists` directory
(lines 283-289 run before the validation of line 292), refuting "no directory
is created and no file is touched before the validation rejects the
parameters". -/
theorem C7_early_io_counterexample :
    FsEvent.mkdirLists ∈ (split_dataset ⟨fun _ => true, true, true, true⟩
      (some 2) (some (1/5)) false (some 0) true).1 ∧
    (split_dataset ⟨fun _ => true, true, true, true⟩ (some 2) (some (1/5))
      false (some 0) true).2 = Except.error "Invalid validation percentage" :=
  ⟨by with_unfolding_all decide, by with_unfolding_all decide⟩

/-- C7 amended: every invalid configuration is rejected with a `ValueError`
BEFORE the split directory is created, any split file is written, or the
default-split symlink is touched — but AFTER the annotation listing is read
and the `lists` folder is created: on every error outcome the effect trace is
exactly [scanDir, mkdirLists]. -/
theorem C7_early_io_amended (fs : DatasetFs) (vp tp : Option ℚ) (f : Bool)
    (sp : Option ℤ) (m : Bool) (e : String)
    (herr : (split_dataset fs vp tp f sp m).2 = Except.error e) :
    (split_dataset fs vp tp f sp m).1
      = [FsEvent.scanDir, FsEvent.mkdirLists] := by
  rcases vp with _ | v
  · rfl
  · rcases tp with _ | t
    · simp only [split_dataset]
      split
      · rfl
      · rfl
    · rcases sp with _ | seed
      · simp only [split_dataset]
        split
        · rfl
        · split
          · rfl
          · split
            · rfl
            · rfl
      · simp only [split_dataset] at herr ⊢
        split at herr
        · rename_i h1
          rw [if_pos h1]
        · rename_i h1
          rw [if_neg h1]
          split at herr
          · rename_i h2
            rw [if_pos h2]
          · rename_i h2
            rw [if_neg h2]
            split at herr
            · rename_i h3
              rw [if_pos h3]
            · rename_i h3
              rw [if_neg h3]
              exfalso
              simp at herr

/-- C7 witness: the amended theorem applied at the counterexample
configuration (validation percentage 2). -/
theorem C7_early_io_witness :
    (split_dataset ⟨fun _ => true, true, true, true⟩ (some 2) (some (1/5))
      false (some 0) true).1 = [FsEvent.scanDir, FsEvent.mkdirLists] :=
  C7_early_io_amended ⟨fun _ => true, true, true, true⟩ (some 2) (some (1/5))
    false (some 0) true "Invalid validation percentage"
    (by with_unfolding_all decide)

/-- C8 (code bug): for a non-zero seed the derived split identity does NOT end
in the decimal value of the seed: line 307 of the source appends the plain
string "_s{split_seed}" (the f-string prefix is missing), so the nine literal
characters of the placeholder are appended instead of the seed value. For
seed 0 the suffix is correctly omitted. -/
theorem C8_split_id_literal :
    split_id (1/10) (2/10) 1 = "split_v10_t20_s\x7bsplit_seed\x7d" ∧
    split_id (1/10) (2/10) 1 ≠ "split_v10_t20_s1" ∧
    split_id (1/10) (2/10) 0 = "split_v10_t20" :=
  ⟨by with_unfolding_all decide, by with_unfolding_all decide,
   by with_unfolding_all decide⟩

/-! ## Claim about the random partitioner -/

/-- C9: slicing the seeded permutation into three contiguous runs yields
`len(val) = floor(n*val)`, `len(test) = floor(n*test)`,
`len(train) = n - len(val) - len(test)`, the three lengths sum to `n`, the
three sets are pairwise disjoint, and their union is exactly `range(n)` (as a
permutation). -/
theorem C9_random_split_sizes (indices : List ℕ) (n : ℕ) (v t : ℚ)
    (hv0 : 0 < v) (hv1 : v < 1) (ht0 : 0 ≤ t) (ht1 : t < 1)
    (hsum : v + t < 1) (hperm : indices.Perm (List.range n)) :
    (random_split indices n v t).2.1.length = (⌊(n : ℚ) * v⌋).toNat ∧
    (random_split indices n v t).2.2.length = (⌊(n : ℚ) * t⌋).toNat ∧
    (random_split indices n v t).1.length
      = n - (random_split indices n v t).2.1.length
          - (random_split indices n v t).2.2.length ∧
    (random_split indices n v t).1.length
      + (random_split indices n v t).2.1.length
      + (random_split indices n v t).2.2.length = n ∧
    (random_split indices n v t).1.Disjoint (random_split indices n v t).2.1 ∧
    (random_split indices n v t).1.Disjoint (random_split indices n v t).2.2 ∧
    (random_split indices n v t).2.1.Disjoint (random_split indices n v t).2.2 ∧
    ((random_split indices n v t).1 ++ (random_split indices n v t).2.1
      ++ (random_split indices n v t).2.2).Perm (List.range n) := by
  have hlen : indices.length = n := by rw [hperm.length_eq, List.length_range]
  have h0v : 0 ≤ ⌊(n : ℚ) * v⌋ := by
    rw [Int.floor_nonneg]
    positivity
  have h0t : 0 ≤ ⌊(n : ℚ) * t⌋ := by
    rw [Int.floor_nonneg]
    positivity
  have hvts : (⌊(n : ℚ) * v⌋).toNat + (⌊(n : ℚ) * t⌋).toNat ≤ n := by
    rcases Nat.eq_zero_or_pos n with hn | hn
    · subst hn
      simp
    · have hq : (n : ℚ) * v + (n : ℚ) * t < n := by
        have := mul_lt_mul_of_pos_left hsum (by exact_mod_cast hn : (0 : ℚ) < n)
        calc (n : ℚ) * v + (n : ℚ) * t = (n : ℚ) * (v + t) := by ring
          _ < (n : ℚ) * 1 := this
          _ = n := by ring
      have hz : ⌊(n : ℚ) * v⌋ + ⌊(n : ℚ) * t⌋ < (n : ℤ) := by
        have h1 : ((⌊(n : ℚ) * v⌋ + ⌊(n : ℚ) * t⌋ : ℤ) : ℚ) ≤ (n : ℚ) * v + (n : ℚ) * t := by
          push_cast
          exact add_le_add (Int.floor_le _) (Int.floor_le _)
        have h2 : ((⌊(n : ℚ) * v⌋ + ⌊(n : ℚ) * t⌋ : ℤ) : ℚ) < (n : ℚ) :=
          lt_of_le_of_lt h1 hq
        exact_mod_cast h2
      omega
  have hpv : pyInt ((n : ℚ) * v) = ⌊(n : ℚ) * v⌋ := pyInt_eq_floor _
  have hpt : pyInt ((n : ℚ) * t) = ⌊(n : ℚ) * t⌋ := pyInt_eq_floor _
  have hsplit : (random_split indices n v t).1
      ++ (random_split indices n v t).2.1
      ++ (random_split indices n v t).2.2 = indices := by
    simp only [random_split]
    rw [List.append_assoc]
    have hdd : indices.drop
        (n - (pyInt ((n : ℚ) * v)).toNat - (pyInt ((n : ℚ) * t)).toNat
          + (pyInt ((n : ℚ) * v)).toNat)
        = (indices.drop
            (n - (pyInt ((n : ℚ) * v)).toNat - (pyInt ((n : ℚ) * t)).toNat)).drop
          (pyInt ((n : ℚ) * v)).toNat := by
      rw [List.drop_drop]
    rw [hdd, List.take_append_drop, List.take_append_drop]
  have hnd : ((random_split indices n v t).1
      ++ (random_split indices n v t).2.1
      ++ (random_split indices n v t).2.2).Nodup := by
    rw [hsplit]
    exact hperm.nodup_iff.mpr (List.nodup_range n)
  have hPerm : ((random_split indices n v t).1
      ++ (random_split indices n v t).2.1
      ++ (random_split indices n v t).2.2).Perm (List.range n) := by
    rw [hsplit]
    exact hperm
  have hd1 := List.nodup_append.mp hnd
  have hd2 := List.nodup_append.mp hd1.1
  have hd3 := List.disjoint_append_left.mp hd1.2.2
  refine ⟨?_, ?_, ?_, ?_, hd2.2.2, hd3.1, hd3.2, hPerm⟩
  · simp only [random_split, hpv, hpt, List.length_take, List.length_drop, hlen]
    omega
  · simp only [random_split, hpv, hpt, List.length_take, List.length_drop, hlen]
    omega
  · simp only [random_split, hpv, hpt, List.length_take, List.length_drop, hlen]
    omega
  · simp only [random_split, hpv, hpt, List.length_take, List.length_drop, hlen]
    omega

/-- C9 witness: the random-partition theorem applied at n = 10,
val = 1/10, test = 2/10, with the identity permutation of range(10). -/
theorem C9_random_split_sizes_witness :
    (random_split (List.range 10) 10 (1/10) (2/10)).2.1.length
      = (⌊(10 : ℚ) * (1/10)⌋).toNat ∧
    (random_split (List.range 10) 10 (1/10) (2/10)).2.2.length
      = (⌊(10 : ℚ) * (2/10)⌋).toNat ∧
    (random_split (List.range 10) 10 (1/10) (2/10)).1.Disjoint
      (random_split (List.range 10) 10 (1/10) (2/10)).2.1 ∧
    ((random_split (List.range 10) 10 (1/10) (2/10)).1
      ++ (random_split (List.range 10) 10 (1/10) (2/10)).2.1
      ++ (random_split (List.range 10) 10 (1/10) (2/10)).2.2).Perm
      (List.range 10) := by
  have h := C9_random_split_sizes (List.range 10) 10 (1/10) (2/10)
    (by with_unfolding_all decide) (by with_unfolding_all decide)
    (by with_unfolding_all decide) (by with_unfolding_all decide)
    (by with_unfolding_all decide) (List.Perm.refl _)
  exact ⟨h.1, h.2.1, h.2.2.2.2.1, h.2.2.2.2.2.2.2⟩

/-! ## Claim about `get_classes` -/

/-- C10: with `remove_background = True`, `get_classes` on a non-empty classes
file returns all stripped lines, dropping the first exactly when it equals
"__background__"; on an empty classes file the `classes[0]` subscript fails
with an `IndexError` instead of returning an empty list. -/
theorem C10_get_classes_background :
    (∀ (c : String) (cs : List String),
      get_classes (c :: cs) true
        = Except.ok (if c.trim = "__background__" then cs.map String.trim
            else c.trim :: cs.map String.trim)) ∧
    get_classes [] true = Except.error "IndexError: list index out of range" :=
  ⟨fun _ _ => rfl, rfl⟩
